import Mathlib

/-!
Verification of the chunked transcription pipeline of MeetingTool
(src/transcriber.py and src/diarizer.py), as a shallow embedding.

Modelling conventions:
  * Python floats carrying time values are modelled exactly as rationals (ℚ);
    engine timestamps are integer milliseconds, as documented in the source.
  * Files are modelled at whole-file granularity: the per-chunk checkpoint
    store maps a chunk index to the contents of its two artifact files
    (chunk text file, chunk segments file); reading back a written file
    yields exactly the written value.
  * The transcription engine (FunASR `model.generate`) is an external
    collaborator and is modelled as an explicit function from chunk index to
    either a raw result or an error (an exception escaping `generate`).
-/

namespace MeetingTool

/-- Transcript segment as stored by the pipeline: global times in seconds,
sentence text, and speaker label.  `stop` models the JSON field `"end"`. -/
structure Seg where
  start : ℚ
  stop : ℚ
  text : String
  speaker : String
  deriving Repr, DecidableEq

/-- Diarization interval as produced by `diarize_audio` / the cache:
global start/end seconds and a speaker label.  `stop` models `"end"`. -/
structure DiarizationInterval where
  start : ℚ
  stop : ℚ
  speaker : String
  deriving Repr, DecidableEq

/-- One element of the FunASR field `sentence_info`: chunk-local integer millisecond
timestamps, text, and an optional integer speaker-cluster id (`spk`).  The
fields are optional because the source reads them with `.get(..., default)`. -/
structure Sentence where
  start : Option ℤ
  stop : Option ℤ
  text : String
  spk : Option ℤ
  deriving Repr, DecidableEq

/-- One element of the raw FunASR result list: full text plus
`sentence_info` (possibly empty when the engine returns no sentences). -/
structure FunasrItem where
  text : String
  sentence_info : List Sentence
  deriving Repr, DecidableEq

/-- The Python call `round(x, 3)`: round to 3 decimal places.  On the values arising
here `x` is an exact multiple of 1/1000 (integer milliseconds divided by
1000), where every rounding convention is the identity, so modelling with
round-half-to-even versus round-half-up is immaterial. -/
def round3 (q : ℚ) : ℚ := (round (q * 1000) : ℤ) / 1000

/-- The Python label `f"SPEAKER_{n:02d}"` label for a speaker-cluster id. -/
def speakerLabel (n : ℤ) : String :=
  "SPEAKER_" ++ (if 0 ≤ n ∧ n < 10 then "0" ++ toString n else toString n)

/-- The sentinel label used by the source for "no speaker known"
(the string `"未知"`, "unknown"). -/
def unknownSpeaker : String := "未知"

/-- Embedding of `_parse_funasr_result` applied to one `sentence_info`
entry (the body of the `for sent in sentence_info` loop in
src/transcriber.py lines 143-161): add the millisecond offset of the chunk,
convert to seconds with `round(·, 3)`, and resolve the speaker label. -/
def parseSentence (time_offset_ms : ℤ) (use_speaker : Bool) (sent : Sentence) : Seg :=
  let start_ms : ℤ := sent.start.getD 0 + time_offset_ms
  let end_ms : ℤ := sent.stop.getD 0 + time_offset_ms
  let speaker : String :=
    match use_speaker, sent.spk with
    | true, some k => speakerLabel k
    | _, _ => unknownSpeaker
  { start := round3 ((start_ms : ℚ) / 1000)
    stop := round3 ((end_ms : ℚ) / 1000)
    text := sent.text.trim
    speaker := speaker }

/-- Embedding of `_parse_funasr_result` (src/transcriber.py lines 112-163):
empty result gives `("", [])`; a result whose head has no `sentence_info`
gives the stripped text and no segments; otherwise each sentence becomes a
globally-timed segment. -/
def parse_funasr_result (result : List FunasrItem) (time_offset_ms : ℤ)
    (use_speaker : Bool) : String × List Seg :=
  match result with
  | [] => ("", [])
  | item :: _ =>
    let text := item.text.trim
    if item.sentence_info = [] then
      (text, [])
    else
      (text, item.sentence_info.map (parseSentence time_offset_ms use_speaker))

/-- Rounding to 3 decimals is the identity on integer multiples of 1/1000. -/
lemma round3_int_div_1000 (m : ℤ) : round3 ((m : ℚ) / 1000) = (m : ℚ) / 1000 := by
  unfold round3
  have h : ((m : ℚ) / 1000) * 1000 = (m : ℚ) := by ring
  rw [h, round_intCast]

/-- Claim C2: for every chunk index `i` and every engine sentence with
chunk-local integer millisecond timestamps, `_parse_funasr_result` stores a
global time equal to `local_ms / 1000 + i * chunk_duration_seconds`; whenever
`0 ≤ local_start_ms < chunk_duration_seconds * 1000`, the stored global start
lies in `[i * D, (i+1) * D)`. -/
theorem parse_funasr_global_time (i D : ℕ) (u : Bool) (item : FunasrItem)
    (rest : List FunasrItem) (hinfo : item.sentence_info ≠ []) :
    (parse_funasr_result (item :: rest) ((i * D * 1000 : ℕ) : ℤ) u).2
      = item.sentence_info.map (parseSentence ((i * D * 1000 : ℕ) : ℤ) u) ∧
    ∀ sent ∈ item.sentence_info,
      (parseSentence ((i * D * 1000 : ℕ) : ℤ) u sent).start
          = (sent.start.getD 0 : ℚ) / 1000 + i * D ∧
      (0 ≤ sent.start.getD 0 → sent.start.getD 0 < (D : ℤ) * 1000 →
        ((i * D : ℕ) : ℚ) ≤ (parseSentence ((i * D * 1000 : ℕ) : ℤ) u sent).start ∧
        (parseSentence ((i * D * 1000 : ℕ) : ℤ) u sent).start < ((i : ℚ) + 1) * D) := by
  constructor
  · simp [parse_funasr_result, hinfo]
  · intro sent _
    have hstart : (parseSentence ((i * D * 1000 : ℕ) : ℤ) u sent).start
        = (sent.start.getD 0 : ℚ) / 1000 + i * D := by
      show round3 ((((sent.start.getD 0 + ((i * D * 1000 : ℕ) : ℤ)) : ℤ) : ℚ) / 1000)
          = (sent.start.getD 0 : ℚ) / 1000 + i * D
      rw [round3_int_div_1000]
      push_cast
      ring
    refine ⟨hstart, fun h0 hlt => ?_⟩
    have h0q : (0 : ℚ) ≤ (sent.start.getD 0 : ℚ) := by exact_mod_cast h0
    have hltq : (sent.start.getD 0 : ℚ) < (D : ℚ) * 1000 := by exact_mod_cast hlt
    constructor
    · rw [hstart]
      push_cast
      have : (0 : ℚ) ≤ (sent.start.getD 0 : ℚ) / 1000 := by positivity
      linarith
    · rw [hstart]
      have : (sent.start.getD 0 : ℚ) / 1000 < (D : ℚ) := by
        rw [div_lt_iff₀ (by norm_num : (0 : ℚ) < 1000)]
        linarith
      linarith [this]

/-- Witness for C2 at a concrete input: chunk 2, 1800-second chunks, a
sentence starting at local millisecond 500. -/
theorem parse_funasr_global_time_witness :
    (parseSentence ((2 * 1800 * 1000 : ℕ) : ℤ) false
        ⟨some 500, some 900, "hello", none⟩).start
      = ((some (500 : ℤ)).getD 0 : ℚ) / 1000 + 2 * 1800 ∧
    ((2 * 1800 : ℕ) : ℚ) ≤ (parseSentence ((2 * 1800 * 1000 : ℕ) : ℤ) false
        ⟨some 500, some 900, "hello", none⟩).start := by
  have h := parse_funasr_global_time 2 1800 false
      ⟨"x", [⟨some 500, some 900, "hello", none⟩]⟩ [] (by simp)
  have h2 := h.2 ⟨some 500, some 900, "hello", none⟩ (by simp)
  exact ⟨h2.1, (h2.2 (by norm_num) (by norm_num)).1⟩

/-- Temporal overlap used by `find_speaker` (src/diarizer.py lines 183-186):
`max(0, min(end, seg.end) - max(start, seg.start))`. -/
def overlapWith (start stop : ℚ) (seg : DiarizationInterval) : ℚ :=
  max 0 (min stop seg.stop - max start seg.start)

/-- The accumulator loop of `find_speaker` (src/diarizer.py lines 180-192):
scan the intervals keeping the best speaker and best overlap; an interval
replaces the current best only when its overlap is strictly greater. -/
def findSpeakerLoop (start stop : ℚ) (best : String) (best_overlap : ℚ) :
    List DiarizationInterval → String
  | [] => best
  | seg :: rest =>
    if best_overlap < overlapWith start stop seg then
      findSpeakerLoop start stop seg.speaker (overlapWith start stop seg) rest
    else
      findSpeakerLoop start stop best best_overlap rest

/-- Embedding of `find_speaker` (src/diarizer.py lines 179-192): best
speaker starts as the unknown sentinel with best overlap `0.0`. -/
def find_speaker (diarization_segments : List DiarizationInterval)
    (start stop : ℚ) : String :=
  findSpeakerLoop start stop unknownSpeaker 0 diarization_segments

/-- The greatest overlap of any interval in the list (0 for the empty
list); specification vocabulary for reasoning about `find_speaker`. -/
def maxOverlap (start stop : ℚ) : List DiarizationInterval → ℚ
  | [] => 0
  | seg :: rest => max (overlapWith start stop seg) (maxOverlap start stop rest)

lemma overlapWith_nonneg (start stop : ℚ) (seg : DiarizationInterval) :
    0 ≤ overlapWith start stop seg := le_max_left _ _

lemma maxOverlap_nonneg (start stop : ℚ) (l : List DiarizationInterval) :
    0 ≤ maxOverlap start stop l := by
  induction l with
  | nil => simp [maxOverlap]
  | cons seg rest ih => simp only [maxOverlap]; exact le_max_of_le_right ih

/-- Characterization of the `find_speaker` scan: starting from a
non-negative best overlap, the scan keeps the initial best when no interval
beats it, and otherwise returns the speaker of the first interval attaining
the maximal overlap of the list. -/
lemma findSpeakerLoop_spec (s e : ℚ) (l : List DiarizationInterval) :
    ∀ (best : String) (bo : ℚ), 0 ≤ bo →
      (maxOverlap s e l ≤ bo → findSpeakerLoop s e best bo l = best) ∧
      (bo < maxOverlap s e l →
        (l.find? (fun seg => decide (overlapWith s e seg = maxOverlap s e l))).map
          DiarizationInterval.speaker = some (findSpeakerLoop s e best bo l)) := by
  induction l with
  | nil =>
    intro best bo hbo
    refine ⟨fun _ => rfl, fun h => ?_⟩
    exact absurd h (by simp [maxOverlap]; linarith)
  | cons seg rest ih =>
    intro best bo hbo
    have hov : 0 ≤ overlapWith s e seg := overlapWith_nonneg s e seg
    by_cases hcase : bo < overlapWith s e seg
    · have hrec := ih seg.speaker (overlapWith s e seg) hov
      constructor
      · intro hle
        exfalso
        have h1 : overlapWith s e seg ≤ maxOverlap s e (seg :: rest) := le_max_left _ _
        simp only [maxOverlap] at hle
        have := le_trans (le_max_left (overlapWith s e seg) (maxOverlap s e rest)) hle
        linarith
      · intro _
        simp only [findSpeakerLoop, if_pos hcase]
        by_cases h2 : maxOverlap s e rest ≤ overlapWith s e seg
        · have hmax : maxOverlap s e (seg :: rest) = overlapWith s e seg := by
            simp only [maxOverlap]; exact max_eq_left h2
          rw [hmax, hrec.1 h2]
          simp [List.find?]
        · push_neg at h2
          have hmax : maxOverlap s e (seg :: rest) = maxOverlap s e rest := by
            simp only [maxOverlap]; exact max_eq_right (le_of_lt h2)
          rw [hmax]
          have hpseg : ¬ (overlapWith s e seg = maxOverlap s e rest) := ne_of_lt h2
          rw [List.find?_cons_of_neg _ (by simpa using hpseg)]
          exact hrec.2 h2
    · push_neg at hcase
      have hrec := ih best bo hbo
      constructor
      · intro hle
        simp only [findSpeakerLoop, if_neg (not_lt.mpr hcase)]
        simp only [maxOverlap, max_le_iff] at hle
        exact hrec.1 hle.2
      · intro hgt
        simp only [findSpeakerLoop, if_neg (not_lt.mpr hcase)]
        have h2 : overlapWith s e seg < maxOverlap s e (seg :: rest) :=
          lt_of_le_of_lt hcase hgt
        have h3 : maxOverlap s e (seg :: rest) = maxOverlap s e rest := by
          simp only [maxOverlap] at h2 ⊢
          rcases max_cases (overlapWith s e seg) (maxOverlap s e rest) with ⟨hm, _⟩ | ⟨hm, _⟩
          · exfalso; rw [hm] at h2; exact lt_irrefl _ h2
          · exact hm
        rw [h3] at hgt ⊢
        have hpseg : ¬ (overlapWith s e seg = maxOverlap s e rest) :=
          ne_of_lt (lt_of_le_of_lt hcase hgt)
        rw [List.find?_cons_of_neg _ (by simpa using hpseg)]
        exact hrec.2 hgt

/-- If every interval has zero overlap the list's maximal overlap is 0. -/
lemma maxOverlap_eq_zero_of_all_zero (s e : ℚ) (l : List DiarizationInterval)
    (h : ∀ seg ∈ l, overlapWith s e seg = 0) : maxOverlap s e l = 0 := by
  induction l with
  | nil => rfl
  | cons seg rest ih =>
    simp only [maxOverlap]
    rw [h seg (List.mem_cons_self _ _), ih (fun x hx => h x (List.mem_cons_of_mem _ hx))]
    simp

/-- Claim C3 counterexample: two distinct intervals tie for the strictly
greatest overlap (1 each with segment [0,2]), yet `find_speaker` returns the
speaker of the first of them ("A"), not the unknown-speaker sentinel, so the
tie clause of the claim is false on the code. -/
theorem find_speaker_tie_not_unknown :
    overlapWith 0 2 ⟨0, 1, "A"⟩ = overlapWith 0 2 ⟨1, 2, "B"⟩ ∧
    (⟨0, 1, "A"⟩ : DiarizationInterval) ≠ ⟨1, 2, "B"⟩ ∧
    0 < overlapWith 0 2 ⟨0, 1, "A"⟩ ∧
    find_speaker [⟨0, 1, "A"⟩, ⟨1, 2, "B"⟩] 0 2 = "A" ∧
    find_speaker [⟨0, 1, "A"⟩, ⟨1, 2, "B"⟩] 0 2 ≠ unknownSpeaker := by
  refine ⟨by norm_num [overlapWith], by simp, by norm_num [overlapWith],
    by norm_num [find_speaker, findSpeakerLoop, overlapWith], ?_⟩
  rw [show find_speaker [⟨0, 1, "A"⟩, ⟨1, 2, "B"⟩] 0 2 = "A" from
    by norm_num [find_speaker, findSpeakerLoop, overlapWith]]
  decide

/-- Claim C3 (amended): `find_speaker` returns the unknown-speaker sentinel
when the interval list is empty or every overlap is 0; when some interval
has positive overlap it returns the speaker of the FIRST interval (in list
order) attaining the maximal overlap — in particular the unique strictly
greatest interval when there is one; ties are broken in favour of the
earliest-listed maximal interval, not resolved to the sentinel. -/
theorem find_speaker_max_overlap (divs : List DiarizationInterval) (s e : ℚ) :
    (divs = [] → find_speaker divs s e = unknownSpeaker) ∧
    ((∀ seg ∈ divs, overlapWith s e seg = 0) →
      find_speaker divs s e = unknownSpeaker) ∧
    (0 < maxOverlap s e divs →
      (divs.find? (fun seg => decide (overlapWith s e seg = maxOverlap s e divs))).map
        DiarizationInterval.speaker = some (find_speaker divs s e)) := by
  have hspec := findSpeakerLoop_spec s e divs unknownSpeaker 0 le_rfl
  refine ⟨?_, ?_, ?_⟩
  · rintro rfl; rfl
  · intro hall
    exact hspec.1 (le_of_eq (maxOverlap_eq_zero_of_all_zero s e divs hall))
  · intro hpos
    exact hspec.2 hpos

/-- Witness for the amended theorem of C3 at concrete inputs: the scenario from
the spec (segment [2,4] against intervals A=[0,2.5], B=[2.5,4]; the overlap 1.5 of B beats the 0.5 of A), plus the empty-list and all-zero-overlap cases. -/
theorem find_speaker_max_overlap_witness :
    find_speaker [] 2 4 = unknownSpeaker ∧
    find_speaker [⟨10, 11, "Z"⟩] 2 4 = unknownSpeaker ∧
    (([⟨0, 5/2, "A"⟩, ⟨5/2, 4, "B"⟩] : List DiarizationInterval).find?
        (fun seg => decide (overlapWith 2 4 seg
          = maxOverlap 2 4 [⟨0, 5/2, "A"⟩, ⟨5/2, 4, "B"⟩]))).map
      DiarizationInterval.speaker
      = some (find_speaker [⟨0, 5/2, "A"⟩, ⟨5/2, 4, "B"⟩] 2 4) := by
  refine ⟨(find_speaker_max_overlap [] 2 4).1 rfl,
    (find_speaker_max_overlap [⟨10, 11, "Z"⟩] 2 4).2.1 ?_,
    (find_speaker_max_overlap [⟨0, 5/2, "A"⟩, ⟨5/2, 4, "B"⟩] 2 4).2.2
      (by norm_num [maxOverlap, overlapWith])⟩
  intro seg hseg
  simp only [List.mem_singleton] at hseg
  subst hseg
  norm_num [overlapWith]

/-- One output paragraph of the aligner (src/diarizer.py lines 203 and 210):
format string with the speaker in brackets followed by the texts joined with no separator. -/
def fmtLine (speaker : String) (texts : List String) : String :=
  "【" ++ speaker ++ "】" ++ String.join texts

/-- The run-merging loop of `align_transcript_with_speakers`
(src/diarizer.py lines 194-210): walk segments in order carrying the
current speaker (`None` initially), the texts of the current run, and the
finished lines; flush the current run when the resolved speaker changes and
once more at the end. -/
def alignLoop (divs : List DiarizationInterval) (cur : Option String)
    (curTexts : List String) (lines : List String) : List Seg → List String
  | [] =>
    match cur with
    | none => lines
    | some c => if curTexts = [] then lines else lines ++ [fmtLine c curTexts]
  | seg :: rest =>
    let speaker := find_speaker divs seg.start seg.stop
    if some speaker ≠ cur then
      let flushed :=
        match cur with
        | none => lines
        | some c => if curTexts = [] then lines else lines ++ [fmtLine c curTexts]
      alignLoop divs (some speaker) [seg.text] flushed rest
    else
      alignLoop divs cur (curTexts ++ [seg.text]) lines rest

/-- Embedding of `align_transcript_with_speakers` (src/diarizer.py lines
165-213): run-merge the segments and join the paragraphs with a blank
line. -/
def align_transcript_with_speakers (whisper_segments : List Seg)
    (diarization_segments : List DiarizationInterval) : String :=
  String.intercalate "\n\n"
    (alignLoop diarization_segments none [] [] whisper_segments)

/-- Prepend a run `(c, ts)` to a run list, merging with the head run when it
has the same speaker (specification vocabulary). -/
def mergeRun (c : String) (ts : List String) :
    List (String × List String) → List (String × List String)
  | [] => [(c, ts)]
  | (c2, ts2) :: rs => if c2 = c then (c, ts ++ ts2) :: rs else (c, ts) :: (c2, ts2) :: rs

/-- Modelled from the run-merge wording of the spec: the maximal runs of
consecutive segments with the same resolved speaker, each run carrying its
speaker and the texts of its segments in order.  Used as the specification
side of claim C6. -/
def specSpeakerRuns (divs : List DiarizationInterval) : List Seg → List (String × List String)
  | [] => []
  | seg :: rest =>
    mergeRun (find_speaker divs seg.start seg.stop) [seg.text] (specSpeakerRuns divs rest)

lemma mergeRun_head (c : String) (ts : List String)
    (rs : List (String × List String)) :
    ∃ ts' rs', mergeRun c ts rs = (c, ts') :: rs' := by
  cases rs with
  | nil => exact ⟨ts, [], rfl⟩
  | cons p rs' =>
    by_cases h : p.1 = c
    · exact ⟨ts ++ p.2, rs', by simp [mergeRun, h]⟩
    · exact ⟨ts, p :: rs', by simp [mergeRun, h]⟩

lemma mergeRun_mergeRun (c : String) (ts l : List String)
    (rs : List (String × List String)) :
    mergeRun c ts (mergeRun c l rs) = mergeRun c (ts ++ l) rs := by
  cases rs with
  | nil => simp [mergeRun]
  | cons p rs' =>
    by_cases h : p.1 = c
    · simp [mergeRun, h, List.append_assoc]
    · simp [mergeRun, h]

/-- The aligner loop, once a run is open, produces the already-finished
lines followed by the formatted runs of the remaining segments merged with
the open run. -/
lemma alignLoop_spec (divs : List DiarizationInterval) (segs : List Seg) :
    ∀ (c : String) (ts lines : List String), ts ≠ [] →
      alignLoop divs (some c) ts lines segs
        = lines ++ (mergeRun c ts (specSpeakerRuns divs segs)).map
            (fun p => fmtLine p.1 p.2) := by
  induction segs with
  | nil =>
    intro c ts lines hts
    simp [alignLoop, mergeRun, specSpeakerRuns, hts]
  | cons seg rest ih =>
    intro c ts lines hts
    by_cases hspk : find_speaker divs seg.start seg.stop = c
    · simp only [alignLoop]
      rw [if_neg (by simp [hspk])]
      rw [ih c (ts ++ [seg.text]) lines (by simp)]
      simp only [specSpeakerRuns, hspk, mergeRun_mergeRun]
    · simp only [alignLoop]
      rw [if_pos (by simpa using hspk), if_neg hts]
      rw [ih (find_speaker divs seg.start seg.stop) [seg.text]
        (lines ++ [fmtLine c ts]) (by simp)]
      obtain ⟨ts', rs', hmr⟩ :=
        mergeRun_head (find_speaker divs seg.start seg.stop) [seg.text]
          (specSpeakerRuns divs rest)
      have hruns : specSpeakerRuns divs (seg :: rest)
          = mergeRun (find_speaker divs seg.start seg.stop) [seg.text]
              (specSpeakerRuns divs rest) := rfl
      rw [hruns, hmr]
      simp only [mergeRun]
      rw [if_neg hspk]
      simp [List.append_assoc]

/-- The full aligner output equals the formatted spec-side runs. -/
lemma align_eq_runs (segs : List Seg) (divs : List DiarizationInterval) :
    alignLoop divs none [] [] segs
      = (specSpeakerRuns divs segs).map (fun p => fmtLine p.1 p.2) := by
  cases segs with
  | nil => rfl
  | cons seg rest =>
    have hcond : (some (find_speaker divs seg.start seg.stop) ≠ (none : Option String)) := by
      simp
    simp only [alignLoop, if_pos hcond]
    rw [alignLoop_spec divs rest (find_speaker divs seg.start seg.stop)
      [seg.text] [] (by simp)]
    simp [specSpeakerRuns]

/-- With no diarization intervals every segment resolves to the sentinel,
so the whole sequence is one run. -/
lemma specSpeakerRuns_nil_divs (segs : List Seg) (hne : segs ≠ []) :
    specSpeakerRuns [] segs = [(unknownSpeaker, segs.map Seg.text)] := by
  induction segs with
  | nil => exact absurd rfl hne
  | cons seg rest ih =>
    cases rest with
    | nil => simp [specSpeakerRuns, mergeRun, find_speaker, findSpeakerLoop]
    | cons seg2 rest2 =>
      have h1 : specSpeakerRuns [] (seg :: seg2 :: rest2)
          = mergeRun (find_speaker [] seg.start seg.stop) [seg.text]
              (specSpeakerRuns [] (seg2 :: rest2)) := rfl
      rw [h1, ih (by simp)]
      simp [mergeRun, find_speaker, findSpeakerLoop]

/-- Claim C6: `align_transcript_with_speakers` walks segments in order and
concatenates consecutive segments with the same resolved speaker into one
paragraph (texts joined with no separator), starting a new paragraph exactly
when the resolved speaker changes — i.e. its output is the rendering of the
maximal same-speaker runs; with zero diarization intervals every segment
resolves to the unknown-speaker sentinel and a non-empty segment sequence
produces exactly one paragraph. -/
theorem align_transcript_run_merge (segs : List Seg)
    (divs : List DiarizationInterval) :
    align_transcript_with_speakers segs divs
      = String.intercalate "\n\n"
          ((specSpeakerRuns divs segs).map (fun p => fmtLine p.1 p.2)) ∧
    (segs ≠ [] → align_transcript_with_speakers segs []
      = fmtLine unknownSpeaker (segs.map Seg.text)) := by
  constructor
  · unfold align_transcript_with_speakers
    rw [align_eq_runs]
  · intro hne
    unfold align_transcript_with_speakers
    rw [align_eq_runs, specSpeakerRuns_nil_divs segs hne]
    simp [String.intercalate, String.intercalate.go]

/-- Witness for C6 at a concrete input: two segments, no diarization
intervals; both resolve to the sentinel and merge into one paragraph. -/
theorem align_transcript_run_merge_witness :
    align_transcript_with_speakers
        [⟨0, 1, "hello", "X"⟩, ⟨1, 2, "world", "Y"⟩] []
      = fmtLine unknownSpeaker ["hello", "world"] := by
  simpa using
    (align_transcript_run_merge [⟨0, 1, "hello", "X"⟩, ⟨1, 2, "world", "Y"⟩] []).2
      (by simp)

/-- Source-file fingerprint inputs used by `_get_cache_key`
(src/diarizer.py lines 31-35): file name, file size in bytes, and the stat
modification time in seconds (`st_mtime`, fractional in general). -/
structure Fingerprint where
  name : String
  size : ℕ
  mtime : ℚ
  deriving Repr, DecidableEq

/-- The Python call `int()` on a rational of either sign: truncation
toward zero. -/
def pyInt (q : ℚ) : ℤ := if 0 ≤ q then ⌊q⌋ else -⌊-q⌋

/-- Embedding of `_get_cache_key` (src/diarizer.py lines 31-35).  The source
encodes the key as the string `f"{name}_{size}_{int(mtime)}"`; since the
size and truncated mtime render as sign-and-digit tokens containing no
underscore, the rightmost two underscores delimit them uniquely, so equality
of the encoded strings coincides with equality of this triple, which we use
as the key directly. -/
structure CacheKey where
  name : String
  size : ℕ
  mtimeSec : ℤ
  deriving Repr, DecidableEq

def get_cache_key (fp : Fingerprint) : CacheKey :=
  ⟨fp.name, fp.size, pyInt fp.mtime⟩

/-- Contents of `diarization_cache.json` relevant to the claims: the stored
cache key and the stored intervals.  (The file also records the audio path,
a human-readable timestamp, and speaker/segment counts, none of which are
consulted by `load_diarization_cache`.) -/
structure DiarizationCacheData where
  cache_key : CacheKey
  segments : List DiarizationInterval
  deriving Repr, DecidableEq

/-- Embedding of `save_diarization_cache` (src/diarizer.py lines 70-86):
overwrite the cache file with the key recomputed from the current
fingerprint and the given intervals. -/
def save_diarization_cache (fp : Fingerprint)
    (segments : List DiarizationInterval) : Option DiarizationCacheData :=
  some ⟨get_cache_key fp, segments⟩

/-- Embedding of `load_diarization_cache` (src/diarizer.py lines 45-67):
a missing cache file is a miss; otherwise the stored key must equal the key
recomputed from the current fingerprint, else the entry is stale. -/
def load_diarization_cache (fp : Fingerprint)
    (cache : Option DiarizationCacheData) : Option (List DiarizationInterval) :=
  match cache with
  | none => none
  | some data =>
    if data.cache_key = get_cache_key fp then some data.segments else none

/-- Claim C4 counterexample: the modification time of the fingerprint changes
from 2.5s to 2.7s between put and get (so the recomputed fingerprint
differs), yet the load is a hit, because `_get_cache_key` truncates
`st_mtime` with `int()` and both times truncate to 2. -/
theorem cache_hit_despite_mtime_change :
    (⟨"a.wav", 10, 5/2⟩ : Fingerprint) ≠ ⟨"a.wav", 10, 27/10⟩ ∧
    (⟨"a.wav", 10, 5/2⟩ : Fingerprint).mtime ≠ (⟨"a.wav", 10, 27/10⟩ : Fingerprint).mtime ∧
    load_diarization_cache ⟨"a.wav", 10, 27/10⟩
        (save_diarization_cache ⟨"a.wav", 10, 5/2⟩ [⟨0, 1, "A"⟩])
      = some [⟨0, 1, "A"⟩] := by
  refine ⟨by simp; norm_num, by norm_num, ?_⟩
  have hkey : get_cache_key ⟨"a.wav", 10, 27/10⟩ = get_cache_key ⟨"a.wav", 10, 5/2⟩ := by
    simp only [get_cache_key, pyInt]
    norm_num
  simp [load_diarization_cache, save_diarization_cache, hkey]

/-- Claim C4 (amended): `load_diarization_cache` after `save_diarization_cache`
returns exactly the stored intervals when the recomputed cache key is
unchanged — in particular when the fingerprint is unchanged — and misses
whenever the file name, the file size, or the integer (truncated) second of
the modification time changes; a sub-second mtime change that preserves
`int(st_mtime)` is NOT detected (the code truncates before comparing). -/
theorem cache_get_after_put (fp fp' : Fingerprint)
    (segments : List DiarizationInterval) :
    (get_cache_key fp' = get_cache_key fp →
      load_diarization_cache fp' (save_diarization_cache fp segments)
        = some segments) ∧
    (fp'.name ≠ fp.name ∨ fp'.size ≠ fp.size ∨ pyInt fp'.mtime ≠ pyInt fp.mtime →
      load_diarization_cache fp' (save_diarization_cache fp segments)
        = none) := by
  constructor
  · intro hkey
    simp [load_diarization_cache, save_diarization_cache, hkey]
  · intro hne
    have hkey : get_cache_key fp ≠ get_cache_key fp' := by
      intro hc
      rcases hne with h | h | h
      · exact h (congrArg CacheKey.name hc).symm
      · exact h (congrArg CacheKey.size hc).symm
      · exact h (congrArg CacheKey.mtimeSec hc).symm
    simp [load_diarization_cache, save_diarization_cache, hkey]

/-- Witness for the amended theorem of C4: an unchanged fingerprint hits and
returns the stored intervals; a size change forces a miss. -/
theorem cache_get_after_put_witness :
    load_diarization_cache ⟨"a.wav", 10, 5/2⟩
        (save_diarization_cache ⟨"a.wav", 10, 5/2⟩ [⟨0, 1, "A"⟩])
      = some [⟨0, 1, "A"⟩] ∧
    load_diarization_cache ⟨"a.wav", 11, 5/2⟩
        (save_diarization_cache ⟨"a.wav", 10, 5/2⟩ [⟨0, 1, "A"⟩])
      = none := by
  exact ⟨(cache_get_after_put ⟨"a.wav", 10, 5/2⟩ ⟨"a.wav", 10, 5/2⟩ [⟨0, 1, "A"⟩]).1 rfl,
    (cache_get_after_put ⟨"a.wav", 10, 5/2⟩ ⟨"a.wav", 11, 5/2⟩ [⟨0, 1, "A"⟩]).2
      (Or.inr (Or.inl (by norm_num)))⟩

/-- The Python format `f"{i:04d}"`: decimal digits left-padded with zeros to width 4. -/
def pad4 (i : ℕ) : String :=
  let s := toString i
  if s.length < 4 then String.mk (List.replicate (4 - s.length) '0') ++ s else s

/-- Name of the i-th chunk artifact, `f"chunk_{idx:04d}.wav"`
(src/transcriber.py line 93), relative to the chunks directory of the task. -/
def chunkFileName (i : ℕ) : String := "chunk_" ++ pad4 i ++ ".wav"

/-- The manifest written by `split_audio` (src/transcriber.py lines 98-106). -/
structure Manifest where
  source_audio : String
  total_chunks : ℕ
  chunk_duration_seconds : ℕ
  chunk_paths : List String
  deriving Repr, DecidableEq

/-- An exported chunk artifact: its path and the source slice
`audio[start:end]` it holds, in milliseconds. -/
structure WavFile where
  path : String
  startMs : ℕ
  stopMs : ℕ
  deriving Repr, DecidableEq

/-- Chunking state of the task on disk: the manifest file (if present) and
the chunk artifacts present in the chunks directory. -/
structure ChunkFS where
  manifest : Option Manifest
  files : List WavFile
  deriving Repr, DecidableEq

/-- Effects of one `split_audio` call that the idempotence claim is about:
whether the source was decoded (`AudioSegment.from_file`), how many chunk
artifacts were exported, and whether the manifest was (re)written. -/
structure SplitEffects where
  decoded : Bool
  chunksWritten : ℕ
  manifestWritten : Bool
  deriving Repr, DecidableEq

/-- Path lookup, modelling `Path.exists()` for chunk artifacts. -/
def fileExists (fs : ChunkFS) (p : String) : Bool :=
  fs.files.any (fun f => f.path == p)

/-- Export of one chunk artifact (`chunk.export`): overwrite any file at
the same path. -/
def writeWav (fs : ChunkFS) (w : WavFile) : ChunkFS :=
  { fs with files := fs.files.filter (fun f => f.path ≠ w.path) ++ [w] }

/-- The chunk slices of the decode-and-split loop (src/transcriber.py lines
88-96): the Python `range(0, duration_ms, chunk_ms)` has
`⌈duration_ms / chunk_ms⌉ = (duration_ms + chunk_ms - 1) / chunk_ms`
elements (for `chunk_ms > 0`), the i-th being `i * chunk_ms`, and each chunk
is the slice `audio[start : min(start + chunk_ms, duration_ms)]`. -/
def splitWavs (duration_ms chunk_ms : ℕ) : List WavFile :=
  (List.range ((duration_ms + chunk_ms - 1) / chunk_ms)).map
    (fun i => ⟨chunkFileName i, i * chunk_ms, min (i * chunk_ms + chunk_ms) duration_ms⟩)

/-- The fresh-split branch of `split_audio` (src/transcriber.py lines
83-109): decode, export every chunk, write the manifest. -/
def splitFresh (duration_ms D : ℕ) (source : String) (fs : ChunkFS) :
    List String × ChunkFS × SplitEffects :=
  let wavs := splitWavs duration_ms (D * 1000)
  let paths := wavs.map WavFile.path
  let fs' := wavs.foldl writeWav fs
  (paths,
   { fs' with manifest := some ⟨source, paths.length, D, paths⟩ },
   ⟨true, wavs.length, true⟩)

/-- Embedding of `split_audio` (src/transcriber.py lines 67-109): if a
manifest exists and every chunk artifact it references is present, return
its chunk list with no decoding and no writes; otherwise decode and
re-split.  `D` models `config.CHUNK_DURATION_SECONDS`. -/
def split_audio (duration_ms D : ℕ) (source : String) (fs : ChunkFS) :
    List String × ChunkFS × SplitEffects :=
  match fs.manifest with
  | some m =>
    if m.chunk_paths.all (fun p => fileExists fs p) then
      (m.chunk_paths, fs, ⟨false, 0, false⟩)
    else splitFresh duration_ms D source fs
  | none => splitFresh duration_ms D source fs

lemma fileExists_iff (fs : ChunkFS) (p : String) :
    fileExists fs p = true ↔ ∃ f ∈ fs.files, f.path = p := by
  simp [fileExists, List.any_eq_true]

lemma fileExists_writeWav_of (fs : ChunkFS) (w : WavFile) (p : String)
    (h : fileExists fs p = true ∨ p = w.path) :
    fileExists (writeWav fs w) p = true := by
  rw [fileExists_iff]
  rcases h with h | rfl
  · rw [fileExists_iff] at h
    obtain ⟨f, hf, hfp⟩ := h
    by_cases hpath : f.path = w.path
    · exact ⟨w, by simp [writeWav], by rw [← hfp, hpath]⟩
    · exact ⟨f, by simp [writeWav, List.mem_filter, hf, hpath], hfp⟩
  · exact ⟨w, by simp [writeWav], rfl⟩

lemma fileExists_foldl_writeWav (wavs : List WavFile) :
    ∀ (fs : ChunkFS) (p : String),
      (fileExists fs p = true ∨ ∃ w ∈ wavs, w.path = p) →
      fileExists (wavs.foldl writeWav fs) p = true := by
  induction wavs with
  | nil =>
    intro fs p h
    rcases h with h | ⟨w, hw, _⟩
    · exact h
    · exact absurd hw (List.not_mem_nil w)
  | cons w rest ih =>
    intro fs p h
    simp only [List.foldl_cons]
    apply ih
    rcases h with h | ⟨w', hw', hp⟩
    · exact Or.inl (fileExists_writeWav_of fs w p (Or.inl h))
    · rcases List.mem_cons.mp hw' with rfl | hmem
      · exact Or.inl (fileExists_writeWav_of fs w' p (Or.inr hp.symm))
      · exact Or.inr ⟨w', hmem, hp⟩

/-- After a fresh split, the manifest is present and every chunk artifact
it references exists. -/
lemma splitFresh_valid (duration_ms D : ℕ) (source : String) (fs : ChunkFS) :
    let r := splitFresh duration_ms D source fs
    r.2.1.manifest = some ⟨source, r.1.length, D, r.1⟩ ∧
    (r.1.all (fun p => fileExists r.2.1 p)) = true := by
  refine ⟨rfl, ?_⟩
  rw [List.all_eq_true]
  intro p hp
  have hp' : ∃ w ∈ splitWavs duration_ms (D * 1000), w.path = p := by
    obtain ⟨w, hw, rfl⟩ := List.mem_map.mp hp
    exact ⟨w, hw, rfl⟩
  show fileExists { (splitWavs duration_ms (D * 1000)).foldl writeWav fs with
      manifest := _ } p = true
  have := fileExists_foldl_writeWav (splitWavs duration_ms (D * 1000)) fs p (Or.inr hp')
  simpa [fileExists] using this

/-- When a valid manifest is on disk, `split_audio` returns its chunk list
unchanged, touches nothing, decodes nothing. -/
lemma split_audio_early (duration_ms D : ℕ) (source : String) (fs : ChunkFS)
    (m : Manifest) (hm : fs.manifest = some m)
    (hall : (m.chunk_paths.all (fun p => fileExists fs p)) = true) :
    split_audio duration_ms D source fs = (m.chunk_paths, fs, ⟨false, 0, false⟩) := by
  simp [split_audio, hm, hall]

/-- Every `split_audio` call leaves a manifest whose chunk list is the
returned list and whose referenced artifacts all exist. -/
lemma split_audio_post (duration_ms D : ℕ) (source : String) (fs₀ : ChunkFS) :
    ∃ m, (split_audio duration_ms D source fs₀).2.1.manifest = some m ∧
      m.chunk_paths = (split_audio duration_ms D source fs₀).1 ∧
      (m.chunk_paths.all
        (fun p => fileExists (split_audio duration_ms D source fs₀).2.1 p)) = true := by
  cases hm : fs₀.manifest with
  | none =>
    have heq : split_audio duration_ms D source fs₀ = splitFresh duration_ms D source fs₀ := by
      simp [split_audio, hm]
    rw [heq]
    obtain ⟨h1, h2⟩ := splitFresh_valid duration_ms D source fs₀
    exact ⟨_, h1, rfl, h2⟩
  | some m =>
    cases hall : m.chunk_paths.all (fun p => fileExists fs₀ p) with
    | true =>
      rw [split_audio_early duration_ms D source fs₀ m hm hall]
      exact ⟨m, hm, rfl, hall⟩
    | false =>
      have heq : split_audio duration_ms D source fs₀ = splitFresh duration_ms D source fs₀ := by
        simp [split_audio, hm, hall]
      rw [heq]
      obtain ⟨h1, h2⟩ := splitFresh_valid duration_ms D source fs₀
      exact ⟨_, h1, rfl, h2⟩

/-- Claim C5: calling `split_audio` a second time on the same source with
the same chunk duration returns the same ordered chunk list, leaves the
entire chunking state (manifest file included, hence byte-identical) exactly
as it was, and performs no decode, no chunk export, and no manifest
write. -/
theorem split_audio_idempotent (duration_ms D : ℕ) (source : String) (fs₀ : ChunkFS) :
    (split_audio duration_ms D source (split_audio duration_ms D source fs₀).2.1).1
      = (split_audio duration_ms D source fs₀).1 ∧
    (split_audio duration_ms D source (split_audio duration_ms D source fs₀).2.1).2.1
      = (split_audio duration_ms D source fs₀).2.1 ∧
    (split_audio duration_ms D source (split_audio duration_ms D source fs₀).2.1).2.2
      = ⟨false, 0, false⟩ := by
  obtain ⟨m, hm, hpaths, hall⟩ := split_audio_post duration_ms D source fs₀
  rw [split_audio_early duration_ms D source (split_audio duration_ms D source fs₀).2.1 m hm hall]
  exact ⟨hpaths, rfl, rfl⟩

/-- Claim C7 counterexample: on a zero-length source `split_audio` does not
fail — no `InvalidAudioError` exists anywhere in the code — it returns an
empty chunk list and writes a manifest with zero chunks. -/
theorem split_audio_zero_length_returns_list :
    (split_audio 0 1800 "meeting.mp3" ⟨none, []⟩).1 = [] ∧
    (split_audio 0 1800 "meeting.mp3" ⟨none, []⟩).2.1.manifest
      = some ⟨"meeting.mp3", 0, 1800, []⟩ ∧
    (split_audio 0 1800 "meeting.mp3" ⟨none, []⟩).2.2.manifestWritten = true := by
  refine ⟨rfl, rfl, rfl⟩

/-- Claim C7 (amended): a zero-length source yields an empty chunk list
(no error is raised; the code defines no `InvalidAudioError`, and a failed
decode would propagate the exception of the decoder itself), while a non-empty
source no longer than one chunk duration yields exactly one chunk spanning
the full source length. -/
theorem split_audio_short_source (duration_ms D : ℕ) (source : String)
    (hD : 0 < D) :
    (split_audio 0 D source ⟨none, []⟩).1 = [] ∧
    (0 < duration_ms → duration_ms ≤ D * 1000 →
      (split_audio duration_ms D source ⟨none, []⟩).1 = [chunkFileName 0] ∧
      (split_audio duration_ms D source ⟨none, []⟩).2.1.files
        = [⟨chunkFileName 0, 0, duration_ms⟩]) := by
  have hDms : 0 < D * 1000 := by positivity
  constructor
  · show (splitFresh 0 D source ⟨none, []⟩).1 = []
    have h0 : (D * 1000 - 1) / (D * 1000) = 0 := Nat.div_eq_of_lt (by omega)
    simp [splitFresh, splitWavs, h0]
  · intro h0 h1
    have hn : (duration_ms + D * 1000 - 1) / (D * 1000) = 1 :=
      Nat.div_eq_of_lt_le (by omega) (by omega)
    have hwavs : splitWavs duration_ms (D * 1000)
        = [⟨chunkFileName 0, 0, duration_ms⟩] := by
      have hr : List.range 1 = [0] := rfl
      simp [splitWavs, hn, hr, Nat.min_eq_right h1]
    constructor
    · show (splitFresh duration_ms D source ⟨none, []⟩).1 = [chunkFileName 0]
      simp [splitFresh, hwavs]
    · show (splitFresh duration_ms D source ⟨none, []⟩).2.1.files
        = [⟨chunkFileName 0, 0, duration_ms⟩]
      simp [splitFresh, hwavs, writeWav]

/-- Witness for the amended theorem of C7: a 2.5-second source with 1800-second
chunks yields one chunk spanning milliseconds 0-2500. -/
theorem split_audio_short_source_witness :
    (split_audio 0 1800 "w.wav" ⟨none, []⟩).1 = [] ∧
    (split_audio 2500 1800 "w.wav" ⟨none, []⟩).1 = [chunkFileName 0] ∧
    (split_audio 2500 1800 "w.wav" ⟨none, []⟩).2.1.files
      = [⟨chunkFileName 0, 0, 2500⟩] := by
  have h := split_audio_short_source 2500 1800 "w.wav" (by norm_num)
  exact ⟨h.1, (h.2 (by norm_num) (by norm_num)).1, (h.2 (by norm_num) (by norm_num)).2⟩

/-- Per-chunk checkpoint store (the `chunk_results` directory): the
contents of `chunk_{i:04d}.txt` and `chunk_{i:04d}_segments.json` for each
chunk index, `none` when the file does not exist.  A written file reads back
as the written value. -/
structure ChunkStore where
  textFile : ℕ → Option String
  segFile : ℕ → Option (List Seg)

/-- A store with no checkpoint files (a fresh task). -/
def emptyStore : ChunkStore := ⟨fun _ => none, fun _ => none⟩

/-- The resume guard of the loop (src/transcriber.py line 277): a chunk is
reused only when BOTH its text file and its segments file exist. -/
def chunkComplete (st : ChunkStore) (i : ℕ) : Bool :=
  (st.textFile i).isSome && (st.segFile i).isSome

/-- Writing both checkpoint files of chunk `i`
(src/transcriber.py lines 309-313), at whole-file granularity. -/
def saveResult (st : ChunkStore) (i : ℕ) (text : String) (segs : List Seg) :
    ChunkStore :=
  { textFile := fun j => if j = i then some text else st.textFile j
    segFile := fun j => if j = i then some segs else st.segFile j }

/-- Per-chunk offset of the loop, `idx * config.CHUNK_DURATION_SECONDS * 1000`
in milliseconds (src/transcriber.py line 274). -/
def time_offset_ms (i D : ℕ) : ℤ := ((i * D * 1000 : ℕ) : ℤ)

/-- The engine result for chunk `i` after parsing, with the offset of the loop
(src/transcriber.py lines 273-274 and 297-305); the error branch is never
consulted when the engine succeeds. -/
def parseOut (engine : ℕ → Except String (List FunasrItem)) (D : ℕ)
    (spk : Bool) (i : ℕ) : String × List Seg :=
  match engine i with
  | .ok raw => parse_funasr_result raw (time_offset_ms i D) spk
  | .error _ => ("", [])

/-- What chunk `i` contributes to the accumulated texts and segments: the
stored checkpoint when complete, else the freshly parsed engine result. -/
def chunkOut (engine : ℕ → Except String (List FunasrItem)) (D : ℕ)
    (spk : Bool) (st : ChunkStore) (i : ℕ) : String × List Seg :=
  if chunkComplete st i then ((st.textFile i).getD "", (st.segFile i).getD [])
  else parseOut engine D spk i

/-- Embedding of the per-chunk loop of `transcribe_audio`
(src/transcriber.py lines 269-328): for each chunk index in order, reuse
the checkpoint when both files exist, otherwise invoke the engine (an
engine exception aborts the loop, leaving the store as it is), parse, save
both files, and accumulate.  The third returned component records the chunk
indices on which the engine was invoked, in order. -/
def runChunks (engine : ℕ → Except String (List FunasrItem)) (D : ℕ) (spk : Bool) :
    List ℕ → ChunkStore → List String → List Seg → List ℕ →
    Except String (List String × List Seg) × ChunkStore × List ℕ
  | [], st, texts, segs, calls => (.ok (texts, segs), st, calls)
  | i :: rest, st, texts, segs, calls =>
    if chunkComplete st i then
      runChunks engine D spk rest st
        (texts ++ [(st.textFile i).getD ""]) (segs ++ (st.segFile i).getD []) calls
    else
      match engine i with
      | .error e => (.error e, st, calls ++ [i])
      | .ok raw =>
        let tr := parse_funasr_result raw (time_offset_ms i D) spk
        runChunks engine D spk rest (saveResult st i tr.1 tr.2)
          (texts ++ [tr.1]) (segs ++ tr.2) (calls ++ [i])

/-- Embedding of the chunk phase of `transcribe_audio` over `total` chunks
(chunk paths `range total` from the manifest), starting from checkpoint
store `st`, followed by the final join `"\n".join(all_texts)`
(src/transcriber.py line 331).  Returns (result, final store, engine-call
list); the result carries the full transcript and the global segment
sequence. -/
def transcribe_audio (engine : ℕ → Except String (List FunasrItem)) (D : ℕ)
    (spk : Bool) (total : ℕ) (st : ChunkStore) :
    Except String (String × List Seg) × ChunkStore × List ℕ :=
  let r := runChunks engine D spk (List.range total) st [] [] []
  (r.1.map (fun p => (String.intercalate "\n" p.1, p.2)), r.2.1, r.2.2)

lemma chunkComplete_saveResult_ne (st : ChunkStore) (i j : ℕ) (t : String)
    (sg : List Seg) (h : j ≠ i) :
    chunkComplete (saveResult st i t sg) j = chunkComplete st j := by
  simp [chunkComplete, saveResult, h]

lemma chunkOut_saveResult_ne (engine : ℕ → Except String (List FunasrItem))
    (D : ℕ) (spk : Bool) (st : ChunkStore) (i j : ℕ) (t : String)
    (sg : List Seg) (h : j ≠ i) :
    chunkOut engine D spk (saveResult st i t sg) j = chunkOut engine D spk st j := by
  unfold chunkOut
  rw [chunkComplete_saveResult_ne st i j t sg h]
  simp [saveResult, h]

/-- Characterization of a successful run: outputs are the per-chunk
contributions in order, the engine is invoked exactly on the incomplete
chunks in order, and the final store holds the engine results for the
incomplete chunks and is untouched elsewhere. -/
lemma runChunks_ok (engine : ℕ → Except String (List FunasrItem)) (D : ℕ)
    (spk : Bool) :
    ∀ (idxs : List ℕ) (st : ChunkStore) (texts : List String) (segs : List Seg)
      (calls : List ℕ), idxs.Nodup → (∀ i ∈ idxs, ∃ raw, engine i = .ok raw) →
      (runChunks engine D spk idxs st texts segs calls).1
          = .ok (texts ++ idxs.map (fun i => (chunkOut engine D spk st i).1),
                 segs ++ (idxs.map (fun i => (chunkOut engine D spk st i).2)).flatten) ∧
      (runChunks engine D spk idxs st texts segs calls).2.2
          = calls ++ idxs.filter (fun i => ! chunkComplete st i) ∧
      (∀ q : ℕ,
        ((runChunks engine D spk idxs st texts segs calls).2.1.textFile q
            = if q ∈ idxs ∧ chunkComplete st q = false
              then some (parseOut engine D spk q).1 else st.textFile q) ∧
        ((runChunks engine D spk idxs st texts segs calls).2.1.segFile q
            = if q ∈ idxs ∧ chunkComplete st q = false
              then some (parseOut engine D spk q).2 else st.segFile q)) := by
  intro idxs
  induction idxs with
  | nil =>
    intro st texts segs calls _ _
    refine ⟨by simp [runChunks], by simp [runChunks], fun q => ?_⟩
    simp [runChunks]
  | cons i rest ih =>
    intro st texts segs calls hnd hok
    have hndr : rest.Nodup := (List.nodup_cons.mp hnd).2
    have hni : i ∉ rest := (List.nodup_cons.mp hnd).1
    have hokr : ∀ j ∈ rest, ∃ raw, engine j = .ok raw :=
      fun j hj => hok j (List.mem_cons_of_mem _ hj)
    cases hcomp : chunkComplete st i with
    | true =>
      have hloop : runChunks engine D spk (i :: rest) st texts segs calls
          = runChunks engine D spk rest st
              (texts ++ [(st.textFile i).getD ""])
              (segs ++ (st.segFile i).getD []) calls := by
        simp [runChunks, hcomp]
      obtain ⟨h1, h2, h3⟩ := ih st (texts ++ [(st.textFile i).getD ""])
        (segs ++ (st.segFile i).getD []) calls hndr hokr
      rw [hloop]
      refine ⟨?_, ?_, ?_⟩
      · rw [h1]
        have hout : chunkOut engine D spk st i
            = ((st.textFile i).getD "", (st.segFile i).getD []) := by
          simp [chunkOut, hcomp]
        simp [hout, List.append_assoc]
      · rw [h2]
        simp [hcomp]
      · intro q
        obtain ⟨h3t, h3s⟩ := h3 q
        rw [h3t, h3s]
        by_cases hq : q = i
        · subst hq
          simp [hcomp, hni]
        · constructor
          · congr 1
            simp [List.mem_cons, hq]
          · congr 1
            simp [List.mem_cons, hq]
    | false =>
      obtain ⟨raw, heng⟩ := hok i (List.mem_cons_self _ _)
      have hparse : parseOut engine D spk i
          = parse_funasr_result raw (time_offset_ms i D) spk := by
        simp [parseOut, heng]
      set tr := parse_funasr_result raw (time_offset_ms i D) spk with htr
      have hloop : runChunks engine D spk (i :: rest) st texts segs calls
          = runChunks engine D spk rest (saveResult st i tr.1 tr.2)
              (texts ++ [tr.1]) (segs ++ tr.2) (calls ++ [i]) := by
        simp [runChunks, hcomp, heng]
      obtain ⟨h1, h2, h3⟩ := ih (saveResult st i tr.1 tr.2)
        (texts ++ [tr.1]) (segs ++ tr.2) (calls ++ [i]) hndr hokr
      rw [hloop]
      have hmapout : rest.map (fun j => chunkOut engine D spk (saveResult st i tr.1 tr.2) j)
          = rest.map (fun j => chunkOut engine D spk st j) := by
        apply List.map_congr_left
        intro j hj
        exact chunkOut_saveResult_ne engine D spk st i j tr.1 tr.2
          (fun h => hni (h ▸ hj))
      have houti : chunkOut engine D spk st i = tr := by
        simp [chunkOut, hcomp, hparse]
      refine ⟨?_, ?_, ?_⟩
      · rw [h1]
        have e1 : rest.map (fun j => (chunkOut engine D spk (saveResult st i tr.1 tr.2) j).1)
            = rest.map (fun j => (chunkOut engine D spk st j).1) := by
          apply List.map_congr_left
          intro j hj
          rw [chunkOut_saveResult_ne engine D spk st i j tr.1 tr.2 (fun h => hni (h ▸ hj))]
        have e2 : rest.map (fun j => (chunkOut engine D spk (saveResult st i tr.1 tr.2) j).2)
            = rest.map (fun j => (chunkOut engine D spk st j).2) := by
          apply List.map_congr_left
          intro j hj
          rw [chunkOut_saveResult_ne engine D spk st i j tr.1 tr.2 (fun h => hni (h ▸ hj))]
        rw [e1, e2]
        simp [houti, List.append_assoc]
      · rw [h2]
        have e3 : rest.filter (fun j => ! chunkComplete (saveResult st i tr.1 tr.2) j)
            = rest.filter (fun j => ! chunkComplete st j) := by
          apply List.filter_congr
          intro j hj
          rw [chunkComplete_saveResult_ne st i j tr.1 tr.2 (fun h => hni (h ▸ hj))]
        rw [e3]
        simp [hcomp, List.append_assoc]
      · intro q
        obtain ⟨h3t, h3s⟩ := h3 q
        rw [h3t, h3s]
        by_cases hq : q = i
        · subst hq
          simp [hni, saveResult, hcomp, hparse]
        · have hcs := chunkComplete_saveResult_ne st i q tr.1 tr.2 hq
          constructor
          · rw [show (saveResult st i tr.1 tr.2).textFile q = st.textFile q from by
              simp [saveResult, hq]]
            congr 1
            simp [List.mem_cons, hq, hcs]
          · rw [show (saveResult st i tr.1 tr.2).segFile q = st.segFile q from by
              simp [saveResult, hq]]
            congr 1
            simp [List.mem_cons, hq, hcs]

/-- Splitting the processed chunk list: a run over `xs ++ ys` is the run
over `xs` continued over `ys`, unless the `xs` part aborted with an engine
error, which is returned as is. -/
lemma runChunks_append (engine : ℕ → Except String (List FunasrItem)) (D : ℕ)
    (spk : Bool) (xs ys : List ℕ) :
    ∀ (st : ChunkStore) (texts : List String) (segs : List Seg) (calls : List ℕ),
      runChunks engine D spk (xs ++ ys) st texts segs calls
        = match runChunks engine D spk xs st texts segs calls with
          | (.ok p, st', cl) => runChunks engine D spk ys st' p.1 p.2 cl
          | (.error e, st', cl) => (.error e, st', cl) := by
  induction xs with
  | nil =>
    intro st texts segs calls
    simp [runChunks]
  | cons i xs ih =>
    intro st texts segs calls
    cases hcomp : chunkComplete st i with
    | true =>
      have h1 : runChunks engine D spk ((i :: xs) ++ ys) st texts segs calls
          = runChunks engine D spk (xs ++ ys) st
              (texts ++ [(st.textFile i).getD ""])
              (segs ++ (st.segFile i).getD []) calls := by
        simp [runChunks, hcomp]
      have h2 : runChunks engine D spk (i :: xs) st texts segs calls
          = runChunks engine D spk xs st
              (texts ++ [(st.textFile i).getD ""])
              (segs ++ (st.segFile i).getD []) calls := by
        simp [runChunks, hcomp]
      rw [h1, h2, ih]
    | false =>
      cases heng : engine i with
      | error e =>
        have h1 : runChunks engine D spk ((i :: xs) ++ ys) st texts segs calls
            = (.error e, st, calls ++ [i]) := by
          simp [runChunks, hcomp, heng]
        have h2 : runChunks engine D spk (i :: xs) st texts segs calls
            = (.error e, st, calls ++ [i]) := by
          simp [runChunks, hcomp, heng]
        rw [h1, h2]
      | ok raw =>
        have h1 : runChunks engine D spk ((i :: xs) ++ ys) st texts segs calls
            = runChunks engine D spk (xs ++ ys)
                (saveResult st i (parse_funasr_result raw (time_offset_ms i D) spk).1
                  (parse_funasr_result raw (time_offset_ms i D) spk).2)
                (texts ++ [(parse_funasr_result raw (time_offset_ms i D) spk).1])
                (segs ++ (parse_funasr_result raw (time_offset_ms i D) spk).2)
                (calls ++ [i]) := by
          simp [runChunks, hcomp, heng]
        have h2 : runChunks engine D spk (i :: xs) st texts segs calls
            = runChunks engine D spk xs
                (saveResult st i (parse_funasr_result raw (time_offset_ms i D) spk).1
                  (parse_funasr_result raw (time_offset_ms i D) spk).2)
                (texts ++ [(parse_funasr_result raw (time_offset_ms i D) spk).1])
                (segs ++ (parse_funasr_result raw (time_offset_ms i D) spk).2)
                (calls ++ [i]) := by
          simp [runChunks, hcomp, heng]
        rw [h1, h2, ih]

lemma chunkComplete_emptyStore (i : ℕ) : chunkComplete emptyStore i = false := rfl

/-- Claim C10: `transcribe_audio` reuses the checkpoint of a chunk only when both
artifacts (text file and segments file) exist: the engine is invoked exactly
on the chunks missing at least one artifact, and each chunk contributes
either BOTH stored artifacts (when complete) or BOTH freshly parsed engine
outputs — never a mixture. -/
theorem transcribe_reuse_requires_both (engine : ℕ → Except String (List FunasrItem))
    (D : ℕ) (spk : Bool) (total : ℕ) (st : ChunkStore)
    (hok : ∀ i, i < total → ∃ raw, engine i = .ok raw) :
    (transcribe_audio engine D spk total st).2.2
        = (List.range total).filter (fun i => ! chunkComplete st i) ∧
    (transcribe_audio engine D spk total st).1
        = .ok (String.intercalate "\n"
            ((List.range total).map (fun i => (chunkOut engine D spk st i).1)),
          ((List.range total).map (fun i => (chunkOut engine D spk st i).2)).flatten) ∧
    (∀ i, i < total → chunkComplete st i = false →
      i ∈ (transcribe_audio engine D spk total st).2.2) := by
  obtain ⟨h1, h2, _⟩ := runChunks_ok engine D spk (List.range total) st [] [] []
    (List.nodup_range total) (fun i hi => hok i (List.mem_range.mp hi))
  have hcalls : (transcribe_audio engine D spk total st).2.2
      = (List.range total).filter (fun i => ! chunkComplete st i) := by
    show (runChunks engine D spk (List.range total) st [] [] []).2.2 = _
    rw [h2]
    simp
  refine ⟨hcalls, ?_, ?_⟩
  · show (runChunks engine D spk (List.range total) st [] [] []).1.map _ = _
    rw [h1]
    simp [Except.map]
  · intro i hi hincomp
    rw [hcalls]
    simp only [List.mem_filter, List.mem_range, hincomp]
    exact ⟨hi, rfl⟩

/-- Claim C1: if the checkpoint store holds exactly the engine's own results
for the chunk prefix `[0, k)` (both artifact files per chunk) and nothing
else, re-running the chunk loop reuses those `k` results, invokes the engine
exactly on the remaining chunks `k, …, total-1`, and returns a transcript
and global segment sequence identical to an uninterrupted run from an empty
store (which invokes the engine on every chunk). -/
theorem transcribe_prefix_resume (engine : ℕ → Except String (List FunasrItem))
    (D : ℕ) (spk : Bool) (total k : ℕ) (st : ChunkStore)
    (hpre : ∀ i, i < k →
      ∃ raw, engine i = .ok raw ∧
        st.textFile i = some (parse_funasr_result raw (time_offset_ms i D) spk).1 ∧
        st.segFile i = some (parse_funasr_result raw (time_offset_ms i D) spk).2)
    (hrest : ∀ i, k ≤ i → st.textFile i = none ∧ st.segFile i = none)
    (hok : ∀ i, i < total → ∃ raw, engine i = .ok raw) :
    (transcribe_audio engine D spk total st).1
        = (transcribe_audio engine D spk total emptyStore).1 ∧
    (transcribe_audio engine D spk total st).2.2
        = (List.range total).filter (fun i => decide (k ≤ i)) ∧
    (transcribe_audio engine D spk total emptyStore).2.2 = List.range total := by
  have hcomp : ∀ i, chunkComplete st i = decide (i < k) := by
    intro i
    by_cases hik : i < k
    · obtain ⟨raw, _, htext, hseg⟩ := hpre i hik
      simp [chunkComplete, htext, hseg, hik]
    · obtain ⟨htext, hseg⟩ := hrest i (le_of_not_lt hik)
      simp [chunkComplete, htext, hseg, hik]
  have hout : ∀ i, chunkOut engine D spk st i = chunkOut engine D spk emptyStore i := by
    intro i
    by_cases hik : i < k
    · obtain ⟨raw, heng, htext, hseg⟩ := hpre i hik
      have hc : chunkComplete st i = true := by rw [hcomp]; simp [hik]
      simp [chunkOut, hc, chunkComplete_emptyStore, htext, hseg, parseOut, heng]
    · obtain ⟨htext, hseg⟩ := hrest i (le_of_not_lt hik)
      have hc : chunkComplete st i = false := by rw [hcomp]; simp [hik]
      simp [chunkOut, hc, chunkComplete_emptyStore]
  obtain ⟨h1, h2, _⟩ := runChunks_ok engine D spk (List.range total) st [] [] []
    (List.nodup_range total) (fun i hi => hok i (List.mem_range.mp hi))
  obtain ⟨g1, g2, _⟩ := runChunks_ok engine D spk (List.range total) emptyStore [] [] []
    (List.nodup_range total) (fun i hi => hok i (List.mem_range.mp hi))
  refine ⟨?_, ?_, ?_⟩
  · show (runChunks engine D spk (List.range total) st [] [] []).1.map _
        = (runChunks engine D spk (List.range total) emptyStore [] [] []).1.map _
    rw [h1, g1]
    have e1 : (List.range total).map (fun i => (chunkOut engine D spk st i).1)
        = (List.range total).map (fun i => (chunkOut engine D spk emptyStore i).1) := by
      apply List.map_congr_left
      intro i _
      rw [hout i]
    have e2 : (List.range total).map (fun i => (chunkOut engine D spk st i).2)
        = (List.range total).map (fun i => (chunkOut engine D spk emptyStore i).2) := by
      apply List.map_congr_left
      intro i _
      rw [hout i]
    rw [e1, e2]
  · show (runChunks engine D spk (List.range total) st [] [] []).2.2 = _
    rw [h2]
    have : (List.range total).filter (fun i => ! chunkComplete st i)
        = (List.range total).filter (fun i => decide (k ≤ i)) := by
      apply List.filter_congr
      intro i _
      rw [hcomp i]
      by_cases hik : i < k
      · simp [hik, Nat.not_le.mpr hik]
      · simp [hik, Nat.le_of_not_lt hik]
    rw [this]
    simp
  · show (runChunks engine D spk (List.range total) emptyStore [] [] []).2.2 = _
    rw [g2]
    simp [chunkComplete_emptyStore]

lemma runChunks_append_ok (engine : ℕ → Except String (List FunasrItem)) (D : ℕ)
    (spk : Bool) (xs ys : List ℕ) (st st' : ChunkStore) (texts T : List String)
    (segs : List Seg) (S : List Seg) (calls cl : List ℕ)
    (h : runChunks engine D spk xs st texts segs calls = (.ok (T, S), st', cl)) :
    runChunks engine D spk (xs ++ ys) st texts segs calls
      = runChunks engine D spk ys st' T S cl := by
  rw [runChunks_append, h]

/-- Claim C9 (amended): if the engine call fails on chunk `j` (all earlier
chunks succeeding) in a run from an empty store, the failure surfaced to
the caller is the engine's raw error — the code wraps it in no
`TranscriptionEngineError` and attaches no chunk index — the checkpoints of
all previously completed chunks remain on disk (the final store holds
exactly the engine results for chunks `0, …, j-1`), so the task is
resumable at chunk `j`, and the engine was invoked exactly once per chunk
`0, …, j` (no retry by this layer). -/
theorem transcribe_engine_error (engine : ℕ → Except String (List FunasrItem))
    (D : ℕ) (spk : Bool) (total j : ℕ) (e : String)
    (hjt : j < total) (hj : engine j = .error e)
    (hok : ∀ i, i < j → ∃ raw, engine i = .ok raw) :
    (transcribe_audio engine D spk total emptyStore).1 = .error e ∧
    (∀ i, i < j →
      (transcribe_audio engine D spk total emptyStore).2.1.textFile i
          = some (parseOut engine D spk i).1 ∧
      (transcribe_audio engine D spk total emptyStore).2.1.segFile i
          = some (parseOut engine D spk i).2) ∧
    (∀ i, j ≤ i →
      (transcribe_audio engine D spk total emptyStore).2.1.textFile i = none ∧
      (transcribe_audio engine D spk total emptyStore).2.1.segFile i = none) ∧
    (transcribe_audio engine D spk total emptyStore).2.2 = List.range (j + 1) := by
  obtain ⟨tail, hdecomp⟩ : ∃ tail, List.range total = List.range j ++ (j :: tail) := by
    refine ⟨(List.range (total - (j + 1))).map (fun x => (j + 1) + x), ?_⟩
    rw [show List.range total = List.range ((j + 1) + (total - (j + 1))) by
      congr 1; omega]
    rw [List.range_add, List.range_succ]
    simp
  obtain ⟨h1, h2, h3⟩ := runChunks_ok engine D spk (List.range j) emptyStore [] [] []
    (List.nodup_range j) (fun i hi => hok i (List.mem_range.mp hi))
  set r := runChunks engine D spk (List.range j) emptyStore [] [] [] with hrdef
  have h0 : r = (r.1, r.2.1, r.2.2) := rfl
  rw [h1] at h0
  have hnotmem : j ∉ List.range j := by simp [List.mem_range]
  have hcompj : chunkComplete r.2.1 j = false := by
    obtain ⟨h3t, h3s⟩ := h3 j
    rw [if_neg (fun hc => hnotmem hc.1)] at h3t
    rw [if_neg (fun hc => hnotmem hc.1)] at h3s
    simp [chunkComplete, h3t, h3s, emptyStore]
  have hstep : ∀ (T : List String) (S : List Seg) (CL : List ℕ),
      runChunks engine D spk (j :: tail) r.2.1 T S CL
        = (.error e, r.2.1, CL ++ [j]) := by
    intro T S CL
    simp [runChunks, hcompj, hj]
  have hrun : runChunks engine D spk (List.range total) emptyStore [] [] []
      = (.error e, r.2.1, r.2.2 ++ [j]) := by
    rw [hdecomp]
    rw [runChunks_append_ok engine D spk (List.range j) (j :: tail) emptyStore
      r.2.1 [] _ [] _ [] r.2.2 h0]
    exact hstep _ _ _
  have hcalls : r.2.2 = List.range j := by
    rw [h2]
    simp [chunkComplete_emptyStore]
  refine ⟨?_, ?_, ?_, ?_⟩
  · show (runChunks engine D spk (List.range total) emptyStore [] [] []).1.map _ = _
    rw [hrun]
    rfl
  · intro i hi
    obtain ⟨h3t, h3s⟩ := h3 i
    have hmem : i ∈ List.range j ∧ chunkComplete emptyStore i = false :=
      ⟨List.mem_range.mpr hi, rfl⟩
    rw [if_pos hmem] at h3t
    rw [if_pos hmem] at h3s
    constructor
    · show (runChunks engine D spk (List.range total) emptyStore [] [] []).2.1.textFile i = _
      rw [hrun]
      exact h3t
    · show (runChunks engine D spk (List.range total) emptyStore [] [] []).2.1.segFile i = _
      rw [hrun]
      exact h3s
  · intro i hi
    obtain ⟨h3t, h3s⟩ := h3 i
    have hnm : i ∉ List.range j := by
      simp [List.mem_range]
      omega
    rw [if_neg (fun hc => hnm hc.1)] at h3t
    rw [if_neg (fun hc => hnm hc.1)] at h3s
    constructor
    · show (runChunks engine D spk (List.range total) emptyStore [] [] []).2.1.textFile i = _
      rw [hrun]
      exact h3t
    · show (runChunks engine D spk (List.range total) emptyStore [] [] []).2.1.segFile i = _
      rw [hrun]
      exact h3s
  · show (runChunks engine D spk (List.range total) emptyStore [] [] []).2.2 = _
    rw [hrun, hcalls, ← List.range_succ]

/-- Fixture engine for concrete runs: chunk 0 yields text "t0" with one
sentence, chunk 1 yields text "t1" with no sentences, any other chunk
errors. -/
def wEngine : ℕ → Except String (List FunasrItem) := fun i =>
  if i = 0 then .ok [⟨"t0", [⟨some 0, some 1000, "s0", none⟩]⟩]
  else if i = 1 then .ok [⟨"t1", []⟩]
  else .error "no chunk"

/-- Fixture store holding exactly the parsed `wEngine` result for chunk 0
(both artifact files), nothing else — the state after a run killed after
chunk 0. -/
def wStore : ChunkStore :=
  ⟨fun i => if i = 0
      then some (parse_funasr_result [⟨"t0", [⟨some 0, some 1000, "s0", none⟩]⟩]
        (time_offset_ms 0 1800) false).1
      else none,
   fun i => if i = 0
      then some (parse_funasr_result [⟨"t0", [⟨some 0, some 1000, "s0", none⟩]⟩]
        (time_offset_ms 0 1800) false).2
      else none⟩

/-- Witness for C1 at a concrete input: chunk 0 checkpointed, chunk 1 not;
the resumed run calls the engine only on chunk 1, the fresh run on both,
and the outputs coincide. -/
theorem transcribe_prefix_resume_witness :
    (transcribe_audio wEngine 1800 false 2 wStore).1
        = (transcribe_audio wEngine 1800 false 2 emptyStore).1 ∧
    (transcribe_audio wEngine 1800 false 2 wStore).2.2 = [1] ∧
    (transcribe_audio wEngine 1800 false 2 emptyStore).2.2 = [0, 1] := by
  have hpre : ∀ i, i < 1 →
      ∃ raw, wEngine i = .ok raw ∧
        wStore.textFile i = some (parse_funasr_result raw (time_offset_ms i 1800) false).1 ∧
        wStore.segFile i = some (parse_funasr_result raw (time_offset_ms i 1800) false).2 := by
    intro i hi
    have h0 : i = 0 := by omega
    subst h0
    exact ⟨[⟨"t0", [⟨some 0, some 1000, "s0", none⟩]⟩], rfl, rfl, rfl⟩
  have hrest : ∀ i, 1 ≤ i → wStore.textFile i = none ∧ wStore.segFile i = none := by
    intro i hi
    have hne : ¬ (i = 0) := by omega
    exact ⟨by simp [wStore, hne], by simp [wStore, hne]⟩
  have hok : ∀ i, i < 2 → ∃ raw, wEngine i = .ok raw := by
    intro i hi
    interval_cases i
    · exact ⟨_, rfl⟩
    · exact ⟨_, rfl⟩
  have h := transcribe_prefix_resume wEngine 1800 false 2 1 wStore hpre hrest hok
  refine ⟨h.1, ?_, ?_⟩
  · rw [h.2.1]
    rfl
  · rw [h.2.2]
    rfl

/-- Fixture store where chunk 0 has ONLY its text file (the state after a
crash between the two checkpoint writes). -/
def wStoreTextOnly : ChunkStore :=
  ⟨fun i => if i = 0 then some "stale" else none, fun _ => none⟩

/-- Witness for C10 at a concrete input: chunk 0 has its text file but not
its segments file, so it is not treated as complete and the engine is
invoked on it; the output is the fresh engine result, not the stale text. -/
theorem transcribe_reuse_requires_both_witness :
    (wStoreTextOnly.textFile 0).isSome = true ∧
    chunkComplete wStoreTextOnly 0 = false ∧
    (transcribe_audio wEngine 1800 false 1 wStoreTextOnly).2.2 = [0] ∧
    (transcribe_audio wEngine 1800 false 1 wStoreTextOnly).1
      = .ok ((parse_funasr_result [⟨"t0", [⟨some 0, some 1000, "s0", none⟩]⟩]
              (time_offset_ms 0 1800) false).1,
             (parse_funasr_result [⟨"t0", [⟨some 0, some 1000, "s0", none⟩]⟩]
              (time_offset_ms 0 1800) false).2) := by
  have hok : ∀ i, i < 1 → ∃ raw, wEngine i = .ok raw := by
    intro i hi
    have h0 : i = 0 := by omega
    subst h0
    exact ⟨_, rfl⟩
  have h := transcribe_reuse_requires_both wEngine 1800 false 1 wStoreTextOnly hok
  refine ⟨rfl, rfl, ?_, ?_⟩
  · rw [h.1]
    rfl
  · rw [h.2.1]
    rfl

/-- Fixture engine that fails immediately on chunk 0. -/
def wEngineFail0 : ℕ → Except String (List FunasrItem) := fun _ => .error "boom"

/-- Fixture engine that succeeds on chunk 0 and fails on chunk 1 with the
same cause as `wEngineFail0`. -/
def wEngineFail1 : ℕ → Except String (List FunasrItem) := fun i =>
  if i = 0 then .ok [⟨"t0", []⟩] else .error "boom"

/-- Claim C9 counterexample: the code has no `TranscriptionEngineError` —
the engine's exception propagates raw.  Two runs whose engine fails at
DIFFERENT chunks (chunk 0 versus chunk 1, as the engine-call lists show)
surface byte-identical failures to the caller, so the surfaced failure
carries no chunk index. -/
theorem transcribe_error_lacks_chunk_index :
    (transcribe_audio wEngineFail0 1800 false 2 emptyStore).1
        = (transcribe_audio wEngineFail1 1800 false 2 emptyStore).1 ∧
    (transcribe_audio wEngineFail0 1800 false 2 emptyStore).2.2 = [0] ∧
    (transcribe_audio wEngineFail1 1800 false 2 emptyStore).2.2 = [0, 1] := by
  exact ⟨rfl, rfl, rfl⟩

/-- Witness for the amended theorem of C9 at a concrete input: engine fails on
chunk 1 after chunk 0 succeeded; the raw cause is surfaced, the checkpoints of chunk 0 survive, those of chunk 1 do not exist, and the engine ran once per
chunk 0 and 1. -/
theorem transcribe_engine_error_witness :
    (transcribe_audio wEngineFail1 1800 false 2 emptyStore).1 = .error "boom" ∧
    (transcribe_audio wEngineFail1 1800 false 2 emptyStore).2.1.textFile 0
        = some (parseOut wEngineFail1 1800 false 0).1 ∧
    (transcribe_audio wEngineFail1 1800 false 2 emptyStore).2.1.segFile 1 = none ∧
    (transcribe_audio wEngineFail1 1800 false 2 emptyStore).2.2 = [0, 1] := by
  have hok : ∀ i, i < 1 → ∃ raw, wEngineFail1 i = .ok raw := by
    intro i hi
    have h0 : i = 0 := by omega
    subst h0
    exact ⟨_, rfl⟩
  have h := transcribe_engine_error wEngineFail1 1800 false 2 1 "boom"
    (by norm_num) rfl hok
  refine ⟨h.1, (h.2.1 0 (by norm_num)).1, (h.2.2.1 1 le_rfl).2, ?_⟩
  rw [h.2.2.2]
  rfl

/-- Contents of a checkpoint file: the text of the chunk or its segments JSON. -/
inductive FileData where
  | text (s : String)
  | segs (l : List Seg)
  deriving Repr, DecidableEq

/-- A filesystem operation the checkpoint writer could perform. -/
inductive FsOp where
  | write (path : String) (data : FileData)
  | rename (src dst : String)
  deriving Repr, DecidableEq

def FsOp.isRenameOp : FsOp → Bool
  | .rename _ _ => true
  | .write _ _ => false

/-- Final path of the text checkpoint of chunk `i`,
`results_dir / f"chunk_{idx:04d}.txt"` (src/transcriber.py line 270). -/
def text_result_path (i : ℕ) : String := "chunk_" ++ pad4 i ++ ".txt"

/-- Final path of the segments checkpoint of chunk `i`,
`results_dir / f"chunk_{idx:04d}_segments.json"`
(src/transcriber.py line 271). -/
def segments_result_path (i : ℕ) : String := "chunk_" ++ pad4 i ++ "_segments.json"

/-- The filesystem operations performed when saving the result of chunk `i`
(src/transcriber.py lines 308-313): two plain `write_text` calls straight
to the final paths, text first, segments second. -/
def saveResultOps (i : ℕ) (text : String) (segs : List Seg) : List FsOp :=
  [.write (text_result_path i) (.text text),
   .write (segments_result_path i) (.segs segs)]

/-- Applying one filesystem operation to a path-to-contents map. -/
def applyOp (fs : String → Option FileData) : FsOp → (String → Option FileData)
  | .write p d => fun q => if q = p then some d else fs q
  | .rename src dst => fun q =>
      if q = dst then fs src else if q = src then none else fs q

def applyOps (fs : String → Option FileData) (ops : List FsOp) :
    String → Option FileData :=
  ops.foldl applyOp fs

/-- View of the reader (`hasResult`): the resume check of the loop requires
both checkpoint files of chunk `i` to exist (src/transcriber.py line 277). -/
def hasResultFiles (fs : String → Option FileData) (i : ℕ) : Prop :=
  (fs (text_result_path i)).isSome = true ∧ (fs (segments_result_path i)).isSome = true

lemma text_result_path_ne_segments (i : ℕ) :
    text_result_path i ≠ segments_result_path i := by
  intro h
  have hlen := congrArg String.length h
  simp [text_result_path, segments_result_path, String.length_append] at hlen
  exact absurd hlen (by decide)

/-- Claim C8 counterexample: saving the chunk-0 result performs two direct
writes to the final checkpoint paths and no rename — there is no
write-to-temporary-then-rename commit step anywhere in the save. -/
theorem save_result_no_temp_rename :
    saveResultOps 0 "t" []
      = [.write (text_result_path 0) (.text "t"),
         .write (segments_result_path 0) (.segs [])] ∧
    (saveResultOps 0 "t" []).all (fun op => ! op.isRenameOp) = true := by
  exact ⟨rfl, rfl⟩

/-- Claim C8 (amended): the save is not performed via a temporary location
and rename; it writes the text file and then the segments file directly to
their final paths.  What holds instead, at whole-file granularity: since the
resume check requires BOTH files, a reader that observes the store after
any proper prefix of the save's operations does not see chunk `i` as having
a result; only the completed save makes `hasResult(i)` true.  (Partial
contents of a single interrupted `write_text` are below the granularity of this model and are not protected.) -/
theorem save_result_not_atomic (i : ℕ) (t : String) (sg : List Seg)
    (fs : String → Option FileData)
    (htext : fs (text_result_path i) = none)
    (hseg : fs (segments_result_path i) = none) :
    ((saveResultOps i t sg).all (fun op => ! op.isRenameOp) = true) ∧
    ¬ hasResultFiles fs i ∧
    ¬ hasResultFiles (applyOps fs [.write (text_result_path i) (.text t)]) i ∧
    hasResultFiles (applyOps fs (saveResultOps i t sg)) i := by
  refine ⟨rfl, ?_, ?_, ?_⟩
  · intro hres
    have h1 := hres.1
    rw [htext] at h1
    simp at h1
  · intro hres
    have h2 := hres.2
    simp only [applyOps, List.foldl_cons, List.foldl_nil, applyOp] at h2
    rw [if_neg (text_result_path_ne_segments i).symm, hseg] at h2
    simp at h2
  · constructor
    · simp only [saveResultOps, applyOps, List.foldl_cons, List.foldl_nil, applyOp]
      rw [if_neg (text_result_path_ne_segments i)]
      simp
    · simp only [saveResultOps, applyOps, List.foldl_cons, List.foldl_nil, applyOp]
      simp

/-- Witness for the amended theorem of C8 on an empty store: after the first
write only, chunk 0 has no observable result; after both writes it does. -/
theorem save_result_not_atomic_witness :
    ¬ hasResultFiles (fun _ => none) 0 ∧
    ¬ hasResultFiles
        (applyOps (fun _ => none) [.write (text_result_path 0) (.text "t")]) 0 ∧
    hasResultFiles (applyOps (fun _ => none) (saveResultOps 0 "t" [])) 0 := by
  have h := save_result_not_atomic 0 "t" [] (fun _ => none) rfl rfl
  exact ⟨h.2.1, h.2.2.1, h.2.2.2⟩

end MeetingTool
